import Mathlib

/-!
Verification development for the zigzag (pivot/swing) subsystem of the
pandas-ta fork, `pandas_ta_tnt/trend/zigzag.py`.

The embedding is shallow: NumPy float arrays become `List ℚ`, NaN missing
markers become `Option`, and fallible array accesses (out-of-bounds reads
and writes, which raise `IndexError` under plain NumPy semantics) become
`Option`/`Except` failures.  Integer positions are `ℕ`, the swing direction
code (a float `±1.0` in the source) is a `ℚ`.

Source functions embedded here:
  * `nb_rolling_hl`   (zigzag.py lines 14-42)   — the Extremum Scanner
  * `nb_find_zigzags` (zigzag.py lines 45-101)  — the Swing Reducer
  * `nb_map_zigzag`   (zigzag.py lines 104-122) — the Output Densifier
  * `zigzag`          (zigzag.py lines 125-208) — the pipeline entry point

The validation helpers `v_series`, `v_pos_default`, `v_bool`, `v_offset`
live in `pandas_ta_tnt.utils`, which is not part of the provided sources;
they are modelled from the specification (see their doc comments).
-/

/-- One extremum candidate emitted by the Scanner: the source keeps three
parallel arrays `idx`, `swing`, `value`; we bundle the `j`-th element of
each into one record. `swing` is `-1` for a LOW, `1` for a HIGH (stored as
a float in the source). -/
structure Extremum where
  idx : ℕ
  swing : ℚ
  value : ℚ
deriving DecidableEq, Repr, Inhabited

/-- One confirmed-swing slot of the Reducer: the `j`-th element of the
source's parallel arrays `zz_idx`, `zz_swing`, `zz_value`, `zz_dev`. -/
structure ZZEntry where
  idx : ℕ
  swing : ℚ
  value : ℚ
  dev : ℚ
deriving DecidableEq, Repr, Inhabited

/-- Modelled from the spec: "a series-validation utility that rejects
inputs shorter than a minimum length" with "min length = legs + 1" and
"*Insufficient data*: input length below `legs + 1` → pipeline yields no
result".  The source (`v_series` in `pandas_ta_tnt.utils`) is not among
the provided files; per the spec it accepts a series iff its length is at
least the requested minimum. -/
def v_series (s : List ℚ) (minLen : ℤ) : Option (List ℚ) :=
  if (s.length : ℤ) < minLen then none else some s

/-- Modelled from the spec: positive-parameter validation with "legacy
default substitution for missing/absent parameters" (`legs` default 10,
`deviation` default 5.0, both "must be > 0"); an explicitly supplied
non-positive value is "rejected at validation".  The source
(`v_pos_default` in `pandas_ta_tnt.utils`) is not among the provided
files.  Integer version (for `legs`). -/
def v_pos_default (var : Option ℤ) (default : ℤ) : Option ℤ :=
  match var with
  | none => some default
  | some v => if 0 < v then some v else none

/-- Modelled from the spec: same validation for rational parameters
(`deviation`). -/
def v_pos_default_f (var : Option ℚ) (default : ℚ) : Option ℚ :=
  match var with
  | none => some default
  | some v => if 0 < v then some v else none

/-- Modelled from the spec: boolean parameter with default substitution
for a missing value.  The source (`v_bool` in `pandas_ta_tnt.utils`) is
not among the provided files. -/
def v_bool (var : Option Bool) (default : Bool) : Bool :=
  match var with
  | none => default
  | some b => b

/-- Modelled from the spec: the offset utility substitutes the default 0
for a missing offset ("offset: non-negative integer (default 0)") and
passes an explicitly supplied integer through to the caller; the caller's
own documented clamp (`offset = max(offset, 0)  # Clamp negative offset`,
zigzag.py line 170, and its docstring "This version simply clamps any
negative offset to 0") handles negative values, so the collaborator cannot
be rejecting them before that line. -/
def v_offset (var : Option ℤ) : ℤ :=
  match var with
  | none => 0
  | some v => v

/-- Extremum Scanner, embedding `nb_rolling_hl` (zigzag.py lines 14-42).

`m = np_high.size`; `left = int(floor(window_size / 2))`; `right = left + 1`.
The loop `for i in range(left, m - right)` is `List.range' left ((m - right) - left)`
(both are the integers `left ≤ i < m - right`).  At each center the source
appends a LOW candidate when `(low_center <= low_window).all()` over the
slice `np_low[i - left : i + right]` and then a HIGH candidate when
`(high_center >= high_window).all()`; the slice is in bounds for every
center, and the element at index `j` is read here with `getD j 0`.

The source writes candidates into arrays preallocated with capacity `m`
(`zeros(m)`); when more than `m` candidates are emitted the write
`idx[extremums] = i` is out of bounds, which raises under NumPy semantics
— modelled by returning `none`. -/
def hlBlock (np_high np_low : List ℚ) (left right i : ℕ) : List Extremum :=
  let low_center := np_low.getD i 0
  let high_center := np_high.getD i 0
  let lows :=
    if (List.range' (i - left) (left + right)).all
        (fun j => decide (low_center ≤ np_low.getD j 0)) then
      [⟨i, -1, low_center⟩]
    else []
  let highs :=
    if (List.range' (i - left) (left + right)).all
        (fun j => decide (np_high.getD j 0 ≤ high_center)) then
      [⟨i, 1, high_center⟩]
    else []
  lows ++ highs

def hlCands (np_high np_low : List ℚ) (window_size : ℕ) : List Extremum :=
  let m := np_high.length
  let left := window_size / 2
  let right := left + 1
  (List.range' left ((m - right) - left)).flatMap
    (hlBlock np_high np_low left right)

/-- The capacity check wrapped around `hlCands` (see the doc comment
above): the fixed-size buffers make the append fault once more than `m`
candidates have been emitted. -/
def nb_rolling_hl (np_high np_low : List ℚ) (window_size : ℕ) :
    Option (List Extremum) :=
  if (hlCands np_high np_low window_size).length ≤ np_high.length then
    some (hlCands np_high np_low window_size)
  else none

/-- One iteration of the Swing Reducer's backward walk, embedding the body
of the loop `for i in range(m - 2, -1, -1)` of `nb_find_zigzags`
(zigzag.py lines 59-98).

State encoding: the source keeps arrays `zz_idx/zz_swing/zz_value/zz_dev`
with a cursor `zigzags`; here the populated slots `zz[0..zigzags]` are the
list `rs.reverse`, i.e. `rs` holds the entries most-recently-appended
first, so the pending swing `zz[zigzags]` is `rs.head`, the previously
finalized swing `zz[zigzags - 1]` is the second element, and
`zigzags = rs.length - 1` (hence the source's guard `zigzags > 1` is
`1 < rest.length`).  The amendment branches write `zz_idx/zz_swing/zz_value`
at `[zigzags]` (keeping `zz_dev[zigzags]`) and restamp `zz_dev[zigzags-1]`;
the commit branches bump the cursor, write the candidate with its `zz_dev`
slot still `0`, and stamp `zz_dev[zigzags-1] = 100 * current_dev`. -/
def zzStep (deviation : ℚ) (rs : List ZZEntry) (c : Extremum) :
    List ZZEntry :=
  match rs with
  | [] => []
  | pend :: rest =>
    if pend.swing = -1 then
      -- "If last point in zigzag is bottom"
      if c.swing = -1 then
        if pend.value > c.value ∧ 1 < rest.length then
          match rest with
          | prev :: rest2 =>
            ⟨c.idx, c.swing, c.value, pend.dev⟩ ::
              { prev with dev := 100 * ((prev.value - c.value) / c.value) } :: rest2
          | [] => pend :: rest
        else pend :: rest
      else
        let current_dev := (c.value - pend.value) / c.value
        if current_dev > 0.01 * deviation then
          if pend.idx = c.idx then pend :: rest
          else
            ⟨c.idx, c.swing, c.value, 0⟩ ::
              { pend with dev := 100 * current_dev } :: rest
        else pend :: rest
    else
      -- "If last point in zigzag is peak"
      if c.swing = 1 then
        if pend.value < c.value ∧ 1 < rest.length then
          match rest with
          | prev :: rest2 =>
            ⟨c.idx, c.swing, c.value, pend.dev⟩ ::
              { prev with dev := 100 * ((c.value - prev.value) / c.value) } :: rest2
          | [] => pend :: rest
        else pend :: rest
      else
        let current_dev := (pend.value - c.value) / c.value
        if current_dev > 0.01 * deviation then
          if pend.idx = c.idx then pend :: rest
          else
            ⟨c.idx, c.swing, c.value, 0⟩ ::
              { pend with dev := 100 * current_dev } :: rest
        else pend :: rest

/-- Swing Reducer, embedding `nb_find_zigzags` (zigzag.py lines 45-101).

The seed `zz[0] = (idx[-1], swing[-1], value[-1], 0)` reads the last
candidate; on an empty candidate list that access is out of bounds
(raises under NumPy semantics), modelled by `none`.  The walk
`for i in range(m - 2, -1, -1)` processes the candidates before the last
one in reverse order: `cands.dropLast.reverse`.  The source returns the
populated slots `zz_*[:zigzags + 1]`, which is `rs.reverse` in the list
encoding of `zzStep`. -/
def nb_find_zigzags (cands : List Extremum) (deviation : ℚ) :
    Option (List ZZEntry) :=
  match cands.getLast? with
  | none => none
  | some lastC =>
      some ((cands.dropLast.reverse.foldl (zzStep deviation)
        [⟨lastC.idx, lastC.swing, lastC.value, 0⟩]).reverse)

/-- The first loop of the Densifier `nb_map_zigzag` (zigzag.py lines
110-114): scatter-write one field of each confirmed swing into a
zero-initialised array of length `n`.  `f` selects the field
(`swing`/`value`/`dev`). -/
def zz_write (f : ZZEntry → ℚ) (entries : List ZZEntry) (n : ℕ) : List ℚ :=
  entries.foldl (fun acc e => acc.set e.idx (f e)) (List.replicate n 0)

/-- Output Densifier, embedding `nb_map_zigzag` (zigzag.py lines 104-122).

The write loop faults if some `idx` is out of range (NumPy `IndexError`),
modelled by `none`.  The second loop turns every position whose
`swing_map` slot is still `0` into NaN in all three arrays; NaN is
modelled as `Option.none`, so position `i` of the result carries `none`
exactly when `swing_map[i] == 0` and `some` of the written value
otherwise. -/
def nb_map_zigzag (entries : List ZZEntry) (n : ℕ) :
    Option (List (Option ℚ) × List (Option ℚ) × List (Option ℚ)) :=
  if entries.all (fun e => e.idx < n) then
    let swing_map := zz_write (fun e => e.swing) entries n
    let value_map := zz_write (fun e => e.value) entries n
    let dev_map := zz_write (fun e => e.dev) entries n
    some (swing_map.map (fun s => if s = 0 then none else some s),
          (swing_map.zip value_map).map
            (fun p => if p.1 = 0 then none else some p.2),
          (swing_map.zip dev_map).map
            (fun p => if p.1 = 0 then none else some p.2))
  else none

/-- Embedding of `pd.Series.shift(offset)` for `offset = k ≥ 0` as applied
at zigzag.py lines 183-186: every value moves `k` positions forward, the
first `k` positions become missing, and the length is preserved. -/
def ser_shift (k : ℕ) (xs : List (Option ℚ)) : List (Option ℚ) :=
  (List.replicate k none ++ xs).take xs.length

/-- Embedding of `Series.fillna(value)` (zigzag.py lines 189-192): replace
every missing marker by the given value. -/
def ser_fillna (x : ℚ) (xs : List (Option ℚ)) : List (Option ℚ) :=
  xs.map (fun o => some (o.getD x))

/-- The returned DataFrame of `zigzag` (zigzag.py lines 198-208): the three
columns, plus the data determining the column/frame names
(`f"_{deviation}%_{legs}"`) and the category tag. -/
structure ZigzagOutput where
  swing : List (Option ℚ)
  value : List (Option ℚ)
  dev : List (Option ℚ)
  deviationParam : ℚ
  legsParam : ℤ
  category : String
deriving DecidableEq, Repr

/-- Pipeline entry point, embedding `zigzag` (zigzag.py lines 125-208).

`Except.ok none` models the Python `return` with no value (the recognized
no-result outcome of validation), `Except.error` models an uncaught
exception inside the numerical pipeline, and `Except.ok (some out)` models
a returned DataFrame.  `retrace` and `last_extreme` are validated
(zigzag.py lines 167-168) but never used.  The `fillna` kwarg is the one
named in the docstring; the legacy `fill_method` kwarg is not modelled. -/
def zigzag (high low : List ℚ) (close : Option (List ℚ))
    (legs : Option ℤ) (deviation : Option ℚ)
    (retrace last_extreme : Option Bool) (offset : Option ℤ)
    (fillna : Option ℚ) : Except String (Option ZigzagOutput) :=
  match v_pos_default legs 10 with
  | none => .error "zigzag: legs must be a positive integer"
  | some legsv =>
    let _length : ℤ := legsv + 1
    match v_series high _length, v_series low _length with
    | none, _ => .ok none
    | some _, none => .ok none
    | some highv, some lowv =>
      if (match close with
          | some c => (v_series c _length).isNone
          | none => false) then .ok none
      else
        match v_pos_default_f deviation 5 with
        | none => .error "zigzag: deviation must be positive"
        | some deviationv =>
          let _retrace := v_bool retrace false
          let _last_extreme := v_bool last_extreme true
          let offsetv : ℤ := max (v_offset offset) 0
          match nb_rolling_hl highv lowv legsv.toNat with
          | none => .error "zigzag: extremum buffer overflow"
          | some cands =>
            match nb_find_zigzags cands deviationv with
            | none => .error "zigzag: index out of range on empty extremum list"
            | some entries =>
              match nb_map_zigzag entries highv.length with
              | none => .error "zigzag: swing position out of range"
              | some (zz_swing, zz_value, zz_dev) =>
                let zz_swing :=
                  if offsetv ≠ 0 then ser_shift offsetv.toNat zz_swing else zz_swing
                let zz_value :=
                  if offsetv ≠ 0 then ser_shift offsetv.toNat zz_value else zz_value
                let zz_dev :=
                  if offsetv ≠ 0 then ser_shift offsetv.toNat zz_dev else zz_dev
                let zz_swing :=
                  match fillna with
                  | some x => ser_fillna x zz_swing
                  | none => zz_swing
                let zz_value :=
                  match fillna with
                  | some x => ser_fillna x zz_value
                  | none => zz_value
                let zz_dev :=
                  match fillna with
                  | some x => ser_fillna x zz_dev
                  | none => zz_dev
                .ok (some { swing := zz_swing, value := zz_value,
                            dev := zz_dev, deviationParam := deviationv,
                            legsParam := legsv, category := "trend" })

/-- Ordering of two Scanner candidates: later candidates sit at a strictly
larger position, except that the LOW and the HIGH of one center share it
(and then differ in direction). -/
def CandR (a b : Extremum) : Prop :=
  a.idx < b.idx ∨ (a.idx = b.idx ∧ a.swing ≠ b.swing)

/-- The pending swing dominates a candidate still to be processed by the
backward walk: the candidate is strictly earlier, or at the same position
with the other direction. -/
def EntryDom (p : ZZEntry) (c : Extremum) : Prop :=
  c.idx < p.idx ∨ (c.idx = p.idx ∧ c.swing ≠ p.swing)

/-- Structural invariant of the Reducer state (most-recently-appended
first): nonempty, directions are `±1`, directions alternate, and positions
strictly decrease towards the head. -/
def InvA (rs : List ZZEntry) : Prop :=
  rs ≠ [] ∧ (∀ e ∈ rs, e.swing = 1 ∨ e.swing = -1) ∧
    rs.Chain' (fun a b => b.swing = -a.swing) ∧
    rs.Chain' (fun a b => a.idx < b.idx)

/-- Deviation invariant of the Reducer state (most-recently-appended
first): all values are positive, the pending swing's deviation slot is
still `0`, and every other entry's deviation was stamped from its
neighbour one step closer to the head (the chronologically earlier swing)
and strictly exceeds the threshold. -/
def InvD (dv : ℚ) (rs : List ZZEntry) : Prop :=
  (∀ e ∈ rs, 0 < e.value) ∧ rs.headI.dev = 0 ∧
    rs.Chain' (fun a b =>
      b.dev = 100 * (b.swing * ((b.value - a.value) / a.value)) ∧ dv < b.dev)

/-! ### Scanner lemmas -/


/-- An element of one per-center block is the center's LOW candidate or
the center's HIGH candidate, together with its window condition. -/
theorem mem_hlBlock {high low : List ℚ} {left right i : ℕ} {e : Extremum} :
    e ∈ hlBlock high low left right i ↔
      ((e = ⟨i, -1, low.getD i 0⟩ ∧
          (List.range' (i - left) (left + right)).all
            (fun j => decide (low.getD i 0 ≤ low.getD j 0)) = true) ∨
       (e = ⟨i, 1, high.getD i 0⟩ ∧
          (List.range' (i - left) (left + right)).all
            (fun j => decide (high.getD j 0 ≤ high.getD i 0)) = true)) := by
  unfold hlBlock
  simp only [List.mem_append]
  constructor
  · rintro (h | h) <;> [left; right] <;> split at h <;>
      simp_all
  · rintro (⟨rfl, h⟩ | ⟨rfl, h⟩) <;> [left; right] <;> rw [if_pos h] <;> simp

theorem mem_hlBlock_idx {high low : List ℚ} {left right i : ℕ} {e : Extremum}
    (h : e ∈ hlBlock high low left right i) : e.idx = i := by
  rcases mem_hlBlock.1 h with ⟨rfl, -⟩ | ⟨rfl, -⟩ <;> rfl

/-- Membership characterization for the Scanner's candidate list: the
window condition of the source, spelled out. -/
theorem mem_hlCands {high low : List ℚ} {W : ℕ} {e : Extremum} :
    e ∈ hlCands high low W ↔
      (W / 2 ≤ e.idx ∧ e.idx + (W / 2 + 1) < high.length ∧
        ((e.swing = -1 ∧ e.value = low.getD e.idx 0 ∧
            (∀ j, e.idx - W / 2 ≤ j → j < e.idx + (W / 2 + 1) →
              low.getD e.idx 0 ≤ low.getD j 0)) ∨
         (e.swing = 1 ∧ e.value = high.getD e.idx 0 ∧
            (∀ j, e.idx - W / 2 ≤ j → j < e.idx + (W / 2 + 1) →
              high.getD j 0 ≤ high.getD e.idx 0)))) := by
  unfold hlCands
  simp only [List.mem_flatMap, List.mem_range'_1]
  constructor
  · rintro ⟨i, ⟨hil, hiu⟩, hmem⟩
    have hiu' : i < high.length - (W / 2 + 1) := by omega
    rcases mem_hlBlock.1 hmem with ⟨rfl, hall⟩ | ⟨rfl, hall⟩
    · refine ⟨hil, by dsimp only; omega, Or.inl ⟨rfl, rfl, fun j hj1 hj2 => ?_⟩⟩
      rw [List.all_eq_true] at hall
      have hj : j ∈ List.range' (i - W / 2) (W / 2 + (W / 2 + 1)) := by
        rw [List.mem_range'_1]
        dsimp only at hj1 hj2
        omega
      simpa using hall j hj
    · refine ⟨hil, by dsimp only; omega, Or.inr ⟨rfl, rfl, fun j hj1 hj2 => ?_⟩⟩
      rw [List.all_eq_true] at hall
      have hj : j ∈ List.range' (i - W / 2) (W / 2 + (W / 2 + 1)) := by
        rw [List.mem_range'_1]
        dsimp only at hj1 hj2
        omega
      simpa using hall j hj
  · rintro ⟨hil, hiu, hcase⟩
    refine ⟨e.idx, ⟨hil, by omega⟩, mem_hlBlock.2 ?_⟩
    rcases hcase with ⟨hs, hv, hwin⟩ | ⟨hs, hv, hwin⟩
    · left
      refine ⟨?_, ?_⟩
      · cases e; simp_all
      · rw [List.all_eq_true]
        intro j hj
        rw [List.mem_range'_1] at hj
        exact decide_eq_true (hwin j hj.1 (by omega))
    · right
      refine ⟨?_, ?_⟩
      · cases e; simp_all
      · rw [List.all_eq_true]
        intro j hj
        rw [List.mem_range'_1] at hj
        exact decide_eq_true (hwin j hj.1 (by omega))

/-- The Scanner's candidate list is sorted by position, and two distinct
candidates at the same position have different directions (the source can
emit at most one LOW and one HIGH per center). -/
theorem hlCands_pairwise (high low : List ℚ) (W : ℕ) :
    (hlCands high low W).Pairwise CandR := by
  unfold hlCands CandR
  rw [List.flatMap_def, List.pairwise_flatten]
  constructor
  · intro l hl
    simp only [List.mem_map] at hl
    obtain ⟨i, _, rfl⟩ := hl
    simp only [hlBlock]
    split <;> split <;>
      simp_all [List.pairwise_cons] <;> norm_num
  · rw [List.pairwise_map]
    apply List.Pairwise.imp ?_ (List.pairwise_lt_range' _ _)
    intro i j hij a ha b hb
    have hai := mem_hlBlock_idx ha
    have hbj := mem_hlBlock_idx hb
    omega

/-! ### Reducer lemmas -/

/-- Complete enumeration of what one Reducer step can do: leave the state
unchanged, amend the pending swing (bottom or peak case), or finalize the
pending swing and push the candidate (bottom or peak case). -/
theorem zzStep_cases (dv : ℚ) (p : ZZEntry) (rest : List ZZEntry)
    (c : Extremum) :
    zzStep dv (p :: rest) c = p :: rest ∨
    (∃ prev rest2, rest = prev :: rest2 ∧
      p.swing = -1 ∧ c.swing = -1 ∧ c.value < p.value ∧ 1 < rest.length ∧
      zzStep dv (p :: rest) c =
        ⟨c.idx, c.swing, c.value, p.dev⟩ ::
          { prev with dev := 100 * ((prev.value - c.value) / c.value) } :: rest2) ∨
    (∃ prev rest2, rest = prev :: rest2 ∧
      ¬p.swing = -1 ∧ c.swing = 1 ∧ p.value < c.value ∧ 1 < rest.length ∧
      zzStep dv (p :: rest) c =
        ⟨c.idx, c.swing, c.value, p.dev⟩ ::
          { prev with dev := 100 * ((c.value - prev.value) / c.value) } :: rest2) ∨
    (p.swing = -1 ∧ ¬c.swing = -1 ∧
      0.01 * dv < (c.value - p.value) / c.value ∧ ¬p.idx = c.idx ∧
      zzStep dv (p :: rest) c =
        ⟨c.idx, c.swing, c.value, 0⟩ ::
          { p with dev := 100 * ((c.value - p.value) / c.value) } :: rest) ∨
    (¬p.swing = -1 ∧ ¬c.swing = 1 ∧
      0.01 * dv < (p.value - c.value) / c.value ∧ ¬p.idx = c.idx ∧
      zzStep dv (p :: rest) c =
        ⟨c.idx, c.swing, c.value, 0⟩ ::
          { p with dev := 100 * ((p.value - c.value) / c.value) } :: rest) := by
  rcases rest with _ | ⟨prev, rest2⟩ <;>
    · simp only [zzStep]
      split_ifs <;> simp_all

theorem zzStep_invA (dv : ℚ) (p : ZZEntry) (rest : List ZZEntry)
    (c : Extremum) (hinv : InvA (p :: rest))
    (hc : c.swing = 1 ∨ c.swing = -1) (hdom : EntryDom p c) :
    InvA (zzStep dv (p :: rest) c) ∧
      ((zzStep dv (p :: rest) c).headI = p ∨
        ((zzStep dv (p :: rest) c).headI.idx = c.idx ∧
         (zzStep dv (p :: rest) c).headI.swing = c.swing)) := by
  obtain ⟨-, hsigns, halt, hidx⟩ := hinv
  rcases zzStep_cases dv p rest c with h |
    ⟨prev, rest2, rfl, hps, hcs, hlt, hlen, h⟩ |
    ⟨prev, rest2, rfl, hps, hcs, hlt, hlen, h⟩ |
    ⟨hps, hcs, hthr, hne, h⟩ | ⟨hps, hcs, hthr, hne, h⟩ <;> rw [h]
  · exact ⟨⟨by simp, hsigns, halt, hidx⟩, Or.inl rfl⟩
  · -- bottom amendment
    rw [List.chain'_cons] at halt hidx
    obtain ⟨ha1, ha2⟩ := halt
    obtain ⟨hi1, hi2⟩ := hidx
    have hcp : c.idx < p.idx := by
      rcases hdom with h' | ⟨h1, h2⟩
      · exact h'
      · exact absurd (hcs.trans hps.symm) h2
    refine ⟨⟨by simp, ?_, ?_, ?_⟩, Or.inr ⟨rfl, rfl⟩⟩
    · intro e he
      rcases he with _ | ⟨_, he⟩
      · exact Or.inr hcs
      rcases he with _ | ⟨_, he⟩
      · exact hsigns prev (by simp)
      · exact hsigns e (List.mem_cons_of_mem _ (List.mem_cons_of_mem _ he))
    · rw [List.chain'_cons]
      constructor
      · show prev.swing = -c.swing
        rw [ha1, hps, hcs]
      · rw [List.chain'_cons'] at ha2 ⊢
        exact ⟨ha2.1, ha2.2⟩
    · rw [List.chain'_cons]
      constructor
      · show c.idx < prev.idx
        exact hcp.trans hi1
      · rw [List.chain'_cons'] at hi2 ⊢
        exact ⟨hi2.1, hi2.2⟩
  · -- peak amendment
    rw [List.chain'_cons] at halt hidx
    obtain ⟨ha1, ha2⟩ := halt
    obtain ⟨hi1, hi2⟩ := hidx
    have hp1 : p.swing = 1 := (hsigns p (by simp)).resolve_right hps
    have hcp : c.idx < p.idx := by
      rcases hdom with h' | ⟨h1, h2⟩
      · exact h'
      · exact absurd (hcs.trans hp1.symm) h2
    refine ⟨⟨by simp, ?_, ?_, ?_⟩, Or.inr ⟨rfl, rfl⟩⟩
    · intro e he
      rcases he with _ | ⟨_, he⟩
      · exact Or.inl hcs
      rcases he with _ | ⟨_, he⟩
      · exact hsigns prev (by simp)
      · exact hsigns e (List.mem_cons_of_mem _ (List.mem_cons_of_mem _ he))
    · rw [List.chain'_cons]
      constructor
      · show prev.swing = -c.swing
        rw [ha1, hp1, hcs]
      · rw [List.chain'_cons'] at ha2 ⊢
        exact ⟨ha2.1, ha2.2⟩
    · rw [List.chain'_cons]
      constructor
      · show c.idx < prev.idx
        exact hcp.trans hi1
      · rw [List.chain'_cons'] at hi2 ⊢
        exact ⟨hi2.1, hi2.2⟩
  · -- bottom push
    have hcs1 : c.swing = 1 := hc.resolve_right hcs
    have hcp : c.idx < p.idx := by
      rcases hdom with h' | ⟨h1, h2⟩
      · exact h'
      · exact absurd h1.symm hne
    refine ⟨⟨by simp, ?_, ?_, ?_⟩, Or.inr ⟨rfl, rfl⟩⟩
    · intro e he
      rcases he with _ | ⟨_, he⟩
      · exact Or.inl hcs1
      rcases he with _ | ⟨_, he⟩
      · exact hsigns p (by simp)
      · exact hsigns e (List.mem_cons_of_mem _ he)
    · rw [List.chain'_cons]
      constructor
      · show p.swing = -c.swing
        rw [hps, hcs1]
      · rw [List.chain'_cons'] at halt ⊢
        exact ⟨halt.1, halt.2⟩
    · rw [List.chain'_cons]
      constructor
      · exact hcp
      · rw [List.chain'_cons'] at hidx ⊢
        exact ⟨hidx.1, hidx.2⟩
  · -- peak push
    have hp1 : p.swing = 1 := (hsigns p (by simp)).resolve_right hps
    have hcsm : c.swing = -1 := hc.resolve_left hcs
    have hcp : c.idx < p.idx := by
      rcases hdom with h' | ⟨h1, h2⟩
      · exact h'
      · exact absurd h1.symm hne
    refine ⟨⟨by simp, ?_, ?_, ?_⟩, Or.inr ⟨rfl, rfl⟩⟩
    · intro e he
      rcases he with _ | ⟨_, he⟩
      · exact Or.inr hcsm
      rcases he with _ | ⟨_, he⟩
      · exact hsigns p (by simp)
      · exact hsigns e (List.mem_cons_of_mem _ he)
    · rw [List.chain'_cons]
      constructor
      · show p.swing = -c.swing
        rw [hp1, hcsm]
        norm_num
      · rw [List.chain'_cons'] at halt ⊢
        exact ⟨halt.1, halt.2⟩
    · rw [List.chain'_cons]
      constructor
      · exact hcp
      · rw [List.chain'_cons'] at hidx ⊢
        exact ⟨hidx.1, hidx.2⟩

/-- The structural invariant is preserved along the whole backward walk. -/
theorem foldl_invA (dv : ℚ) (todo : List Extremum) :
    ∀ rs : List ZZEntry, InvA rs →
      (∀ c ∈ todo, c.swing = 1 ∨ c.swing = -1) →
      (∀ c ∈ todo, EntryDom rs.headI c) →
      List.Pairwise (fun a b => CandR b a) todo →
      InvA (todo.foldl (zzStep dv) rs) := by
  induction todo with
  | nil =>
    intro rs hinv _ _ _
    exact hinv
  | cons c todo ih =>
    intro rs hinv hsg hdom hpw
    rcases rs with _ | ⟨p, rest⟩
    · exact absurd rfl hinv.1
    rw [List.pairwise_cons] at hpw
    have hstep := zzStep_invA dv p rest c hinv (hsg c (by simp))
      (hdom c (by simp))
    rw [List.foldl_cons]
    refine ih _ hstep.1 (fun c' hc' => hsg c' (by simp [hc'])) ?_ hpw.2
    intro c' hc'
    rcases hstep.2 with hh | ⟨hhidx, hhswing⟩
    · rw [hh]
      exact hdom c' (List.mem_cons_of_mem _ hc')
    · have hcr := hpw.1 c' hc'
      unfold EntryDom
      rw [hhidx, hhswing]
      exact hcr

/-- The Reducer's output list (in source order: most recent swing first)
is nonempty, has `±1` directions, strictly alternates, and has strictly
decreasing positions. -/
theorem nb_find_zigzags_invA {high low : List ℚ} {W : ℕ} {dv : ℚ}
    {zz : List ZZEntry}
    (hzz : nb_find_zigzags (hlCands high low W) dv = some zz) :
    zz ≠ [] ∧ (∀ e ∈ zz, e.swing = 1 ∨ e.swing = -1) ∧
      zz.Chain' (fun a b => a.swing = -b.swing) ∧
      zz.Chain' (fun a b => b.idx < a.idx) := by
  cases hlast : (hlCands high low W).getLast? with
  | none =>
    simp only [nb_find_zigzags, hlast] at hzz
    exact Option.noConfusion hzz
  | some lastC =>
    simp only [nb_find_zigzags, hlast, Option.some.injEq] at hzz
    have hlmem : lastC ∈ hlCands high low W :=
      List.mem_of_mem_getLast? (by rw [hlast]; rfl)
    have hlsign : lastC.swing = 1 ∨ lastC.swing = -1 := by
      rcases mem_hlCands.1 hlmem with ⟨-, -, ⟨hs, -, -⟩ | ⟨hs, -, -⟩⟩
      · exact Or.inr hs
      · exact Or.inl hs
    have hne : hlCands high low W ≠ [] := by
      intro hnil
      rw [hnil] at hlast
      exact absurd hlast (by simp)
    have hlastC : (hlCands high low W).getLast hne = lastC := by
      have h0 := List.getLast?_eq_getLast (hlCands high low W) hne
      rw [hlast] at h0
      exact (Option.some.inj h0).symm
    have hsplit : (hlCands high low W).dropLast ++ [lastC] =
        hlCands high low W := by
      rw [← hlastC]
      exact List.dropLast_append_getLast hne
    have hpw := hlCands_pairwise high low W
    rw [← hsplit, List.pairwise_append] at hpw
    have hinv0 : InvA [⟨lastC.idx, lastC.swing, lastC.value, 0⟩] :=
      ⟨by simp, by simpa using hlsign, List.chain'_singleton _,
        List.chain'_singleton _⟩
    have hfold := foldl_invA dv (hlCands high low W).dropLast.reverse
      [⟨lastC.idx, lastC.swing, lastC.value, 0⟩] hinv0
      (fun c hc => by
        rw [List.mem_reverse] at hc
        rcases mem_hlCands.1 (hsplit ▸ List.mem_append_left _ hc) with
          ⟨-, -, ⟨hs, -, -⟩ | ⟨hs, -, -⟩⟩
        · exact Or.inr hs
        · exact Or.inl hs)
      (fun c hc => by
        rw [List.mem_reverse] at hc
        exact hpw.2.2 c hc lastC (by simp))
      (by
        rw [List.pairwise_reverse]
        exact hpw.1)
    obtain ⟨hfne, hfsigns, hfalt, hfidx⟩ := hfold
    rw [← hzz]
    refine ⟨by simpa using hfne,
      fun e he => hfsigns e (List.mem_reverse.1 he), ?_, ?_⟩
    · rw [List.chain'_reverse]
      exact hfalt
    · rw [List.chain'_reverse]
      exact hfidx

theorem zzStep_invD (dv : ℚ) (p : ZZEntry) (rest : List ZZEntry)
    (c : Extremum) (hinvA : InvA (p :: rest)) (hinvD : InvD dv (p :: rest))
    (hcpos : 0 < c.value) :
    InvD dv (zzStep dv (p :: rest) c) := by
  obtain ⟨-, hsigns, halt, -⟩ := hinvA
  obtain ⟨hpos, hdev0, hchain⟩ := hinvD
  rcases zzStep_cases dv p rest c with h |
    ⟨prev, rest2, rfl, hps, hcs, hlt, hlen, h⟩ |
    ⟨prev, rest2, rfl, hps, hcs, hlt, hlen, h⟩ |
    ⟨hps, hcs, hthr, hne, h⟩ | ⟨hps, hcs, hthr, hne, h⟩ <;> rw [h]
  · exact ⟨hpos, hdev0, hchain⟩
  · -- bottom amendment
    rw [List.chain'_cons] at halt hchain
    have hprev1 : prev.swing = 1 := by
      rw [halt.1, hps]; norm_num
    have hp : 0 < p.value := hpos p (by simp)
    have hpr : 0 < prev.value := hpos prev (by simp)
    refine ⟨?_, hdev0, ?_⟩
    · intro e he
      rcases he with _ | ⟨_, he⟩
      · exact hcpos
      rcases he with _ | ⟨_, he⟩
      · exact hpr
      · exact hpos e (List.mem_cons_of_mem _ (List.mem_cons_of_mem _ he))
    · rw [List.chain'_cons]
      have hold : prev.dev = 100 * ((prev.value - p.value) / p.value) := by
        have := hchain.1.1
        rw [hprev1] at this
        rw [this]; ring
      have holdgt : dv < prev.dev := hchain.1.2
      have hkey : (prev.value - p.value) / p.value <
          (prev.value - c.value) / c.value := by
        rw [div_lt_div_iff₀ hp hcpos]
        nlinarith [mul_pos hpr (sub_pos.2 hlt)]
      constructor
      · constructor
        · show 100 * ((prev.value - c.value) / c.value) =
            100 * (prev.swing * ((prev.value - c.value) / c.value))
          rw [hprev1]; ring
        · show dv < 100 * ((prev.value - c.value) / c.value)
          rw [hold] at holdgt
          linarith
      · rw [List.chain'_cons'] at hchain ⊢
        exact ⟨hchain.2.1, hchain.2.2⟩
  · -- peak amendment
    rw [List.chain'_cons] at halt hchain
    have hp1 : p.swing = 1 := (hsigns p (by simp)).resolve_right hps
    have hprevm : prev.swing = -1 := by
      rw [halt.1, hp1]
    have hp : 0 < p.value := hpos p (by simp)
    have hpr : 0 < prev.value := hpos prev (by simp)
    refine ⟨?_, hdev0, ?_⟩
    · intro e he
      rcases he with _ | ⟨_, he⟩
      · exact hcpos
      rcases he with _ | ⟨_, he⟩
      · exact hpr
      · exact hpos e (List.mem_cons_of_mem _ (List.mem_cons_of_mem _ he))
    · rw [List.chain'_cons]
      have hold : prev.dev = 100 * ((p.value - prev.value) / p.value) := by
        have := hchain.1.1
        rw [hprevm] at this
        rw [this]; ring
      have holdgt : dv < prev.dev := hchain.1.2
      have hkey : (p.value - prev.value) / p.value <
          (c.value - prev.value) / c.value := by
        rw [div_lt_div_iff₀ hp hcpos]
        nlinarith [mul_pos hpr (sub_pos.2 hlt)]
      constructor
      · constructor
        · show 100 * ((c.value - prev.value) / c.value) =
            100 * (prev.swing * ((prev.value - c.value) / c.value))
          rw [hprevm]; ring
        · show dv < 100 * ((c.value - prev.value) / c.value)
          rw [hold] at holdgt
          linarith
      · rw [List.chain'_cons'] at hchain ⊢
        exact ⟨hchain.2.1, hchain.2.2⟩
  · -- bottom push
    refine ⟨?_, rfl, ?_⟩
    · intro e he
      rcases he with _ | ⟨_, he⟩
      · exact hcpos
      rcases he with _ | ⟨_, he⟩
      · exact hpos p (by simp)
      · exact hpos e (List.mem_cons_of_mem _ he)
    · rw [List.chain'_cons]
      constructor
      · constructor
        · show 100 * ((c.value - p.value) / c.value) =
            100 * (p.swing * ((p.value - c.value) / c.value))
          rw [hps]; ring
        · show dv < 100 * ((c.value - p.value) / c.value)
          linarith
      · rw [List.chain'_cons'] at hchain ⊢
        exact ⟨hchain.1, hchain.2⟩
  · -- peak push
    have hp1 : p.swing = 1 := (hsigns p (by simp)).resolve_right hps
    refine ⟨?_, rfl, ?_⟩
    · intro e he
      rcases he with _ | ⟨_, he⟩
      · exact hcpos
      rcases he with _ | ⟨_, he⟩
      · exact hpos p (by simp)
      · exact hpos e (List.mem_cons_of_mem _ he)
    · rw [List.chain'_cons]
      constructor
      · constructor
        · show 100 * ((p.value - c.value) / c.value) =
            100 * (p.swing * ((p.value - c.value) / c.value))
          rw [hp1]; ring
        · show dv < 100 * ((p.value - c.value) / c.value)
          linarith
      · rw [List.chain'_cons'] at hchain ⊢
        exact ⟨hchain.1, hchain.2⟩

/-- Both invariants are preserved along the whole backward walk. -/
theorem foldl_invD (dv : ℚ) (todo : List Extremum) :
    ∀ rs : List ZZEntry, InvA rs → InvD dv rs →
      (∀ c ∈ todo, c.swing = 1 ∨ c.swing = -1) →
      (∀ c ∈ todo, 0 < c.value) →
      (∀ c ∈ todo, EntryDom rs.headI c) →
      List.Pairwise (fun a b => CandR b a) todo →
      InvD dv (todo.foldl (zzStep dv) rs) := by
  induction todo with
  | nil =>
    intro rs _ hinvD _ _ _ _
    exact hinvD
  | cons c todo ih =>
    intro rs hinvA hinvD hsg hvpos hdom hpw
    rcases rs with _ | ⟨p, rest⟩
    · exact absurd rfl hinvA.1
    rw [List.pairwise_cons] at hpw
    have hstepA := zzStep_invA dv p rest c hinvA (hsg c (by simp))
      (hdom c (by simp))
    have hstepD := zzStep_invD dv p rest c hinvA hinvD (hvpos c (by simp))
    rw [List.foldl_cons]
    refine ih _ hstepA.1 hstepD (fun c' hc' => hsg c' (by simp [hc']))
      (fun c' hc' => hvpos c' (by simp [hc'])) ?_ hpw.2
    intro c' hc'
    rcases hstepA.2 with hh | ⟨hhidx, hhswing⟩
    · rw [hh]
      exact hdom c' (List.mem_cons_of_mem _ hc')
    · have hcr := hpw.1 c' hc'
      unfold EntryDom
      rw [hhidx, hhswing]
      exact hcr

/-- C3 (amended): in the Reducer's confirmed-swing output (source order:
chronologically latest swing first) on strictly positive prices, every
swing except the chronologically earliest carries a deviation strictly
above the threshold, and that deviation measures the move from its
chronologically earlier neighbour to it, relative to the earlier
neighbour's value (`dev = 100·dir·(value − value_prev)/value_prev`); the
swing with deviation `0` is the chronologically earliest one (the last
pushed), not the most recent. -/
theorem nb_find_zigzags_invD {high low : List ℚ} {W : ℕ} {dv : ℚ}
    {zz : List ZZEntry}
    (hposh : ∀ x ∈ high, 0 < x) (hposl : ∀ x ∈ low, 0 < x)
    (hlen : low.length = high.length)
    (hzz : nb_find_zigzags (hlCands high low W) dv = some zz) :
    zz.Chain' (fun a b =>
        a.dev = 100 * (a.swing * ((a.value - b.value) / b.value)) ∧
          dv < a.dev) ∧
      (∀ e, zz.getLast? = some e → e.dev = 0) := by
  have hcpos : ∀ c ∈ hlCands high low W, 0 < c.value := by
    intro c hc
    rcases mem_hlCands.1 hc with ⟨h1, h2, ⟨-, hv, -⟩ | ⟨-, hv, -⟩⟩
    · rw [hv]
      have hidx : c.idx < low.length := by omega
      rw [List.getD_eq_getElem?_getD, List.getElem?_eq_getElem hidx]
      exact hposl _ (List.getElem_mem hidx)
    · rw [hv]
      have hidx : c.idx < high.length := by omega
      rw [List.getD_eq_getElem?_getD, List.getElem?_eq_getElem hidx]
      exact hposh _ (List.getElem_mem hidx)
  cases hlast : (hlCands high low W).getLast? with
  | none =>
    simp only [nb_find_zigzags, hlast] at hzz
    exact Option.noConfusion hzz
  | some lastC =>
    simp only [nb_find_zigzags, hlast, Option.some.injEq] at hzz
    have hlmem : lastC ∈ hlCands high low W :=
      List.mem_of_mem_getLast? (by rw [hlast]; rfl)
    have hlsign : lastC.swing = 1 ∨ lastC.swing = -1 := by
      rcases mem_hlCands.1 hlmem with ⟨-, -, ⟨hs, -, -⟩ | ⟨hs, -, -⟩⟩
      · exact Or.inr hs
      · exact Or.inl hs
    have hne : hlCands high low W ≠ [] := by
      intro hnil
      rw [hnil] at hlast
      exact absurd hlast (by simp)
    have hlastC : (hlCands high low W).getLast hne = lastC := by
      have h0 := List.getLast?_eq_getLast (hlCands high low W) hne
      rw [hlast] at h0
      exact (Option.some.inj h0).symm
    have hsplit : (hlCands high low W).dropLast ++ [lastC] =
        hlCands high low W := by
      rw [← hlastC]
      exact List.dropLast_append_getLast hne
    have hpw := hlCands_pairwise high low W
    rw [← hsplit, List.pairwise_append] at hpw
    have hinv0 : InvA [⟨lastC.idx, lastC.swing, lastC.value, 0⟩] :=
      ⟨by simp, by simpa using hlsign, List.chain'_singleton _,
        List.chain'_singleton _⟩
    have hinvD0 : InvD dv [⟨lastC.idx, lastC.swing, lastC.value, 0⟩] :=
      ⟨by simpa using hcpos lastC hlmem, rfl, List.chain'_singleton _⟩
    have hfold := foldl_invD dv (hlCands high low W).dropLast.reverse
      [⟨lastC.idx, lastC.swing, lastC.value, 0⟩] hinv0 hinvD0
      (fun c hc => by
        rw [List.mem_reverse] at hc
        rcases mem_hlCands.1 (hsplit ▸ List.mem_append_left _ hc) with
          ⟨-, -, ⟨hs, -, -⟩ | ⟨hs, -, -⟩⟩
        · exact Or.inr hs
        · exact Or.inl hs)
      (fun c hc => by
        rw [List.mem_reverse] at hc
        exact hcpos c (hsplit ▸ List.mem_append_left _ hc))
      (fun c hc => by
        rw [List.mem_reverse] at hc
        exact hpw.2.2 c hc lastC (by simp))
      (by
        rw [List.pairwise_reverse]
        exact hpw.1)
    obtain ⟨-, hfdev0, hfchain⟩ := hfold
    constructor
    · rw [← hzz, List.chain'_reverse]
      exact hfchain
    · intro e he
      rw [← hzz, List.getLast?_reverse] at he
      rcases hrs : (hlCands high low W).dropLast.reverse.foldl (zzStep dv)
          [⟨lastC.idx, lastC.swing, lastC.value, 0⟩] with _ | ⟨p, rest⟩
      · rw [hrs] at he
        exact Option.noConfusion he
      · rw [hrs] at he hfdev0
        have : e = p := by
          have h' : some p = some e := by simpa using he
          exact (Option.some.inj h').symm
        rw [this, ← hfdev0]
        rfl

/-! ### Densifier lemmas -/

theorem zz_write_length (f : ZZEntry → ℚ) (entries : List ZZEntry) (n : ℕ) :
    (zz_write f entries n).length = n := by
  unfold zz_write
  suffices h : ∀ init : List ℚ,
      (entries.foldl (fun a e => a.set e.idx (f e)) init).length =
        init.length by
    rw [h]
    exact List.length_replicate ..
  induction entries with
  | nil => intro init; rfl
  | cons e tl ih =>
    intro init
    rw [List.foldl_cons, ih, List.length_set]

theorem foldl_set_getD (f : ZZEntry → ℚ) (entries : List ZZEntry) :
    ∀ (init : List ℚ) (i : ℕ), i < init.length →
      entries.Pairwise (fun a b => a.idx ≠ b.idx) →
      (entries.foldl (fun a e => a.set e.idx (f e)) init).getD i 0 =
        (match entries.find? (fun e => e.idx == i) with
         | some e => f e
         | none => init.getD i 0) := by
  induction entries with
  | nil =>
    intro init i hi _
    rfl
  | cons e tl ih =>
    intro init i hi hnd
    rw [List.pairwise_cons] at hnd
    rw [List.foldl_cons]
    by_cases he : e.idx = i
    · rw [List.find?_cons_of_pos _ (by simp [he])]
      have htl : tl.find? (fun x => x.idx == i) = none := by
        rw [List.find?_eq_none]
        intro x hx
        simp only [beq_iff_eq]
        intro hxi
        exact hnd.1 x hx (he.trans hxi.symm)
      rw [ih _ i (by rw [List.length_set]; exact hi) hnd.2, htl]
      rw [List.getD_eq_getElem?_getD,
        List.getElem?_eq_getElem (by rw [List.length_set]; exact hi)]
      simp [List.getElem_set, he]
    · rw [List.find?_cons_of_neg _ (by simp [he])]
      rw [ih _ i (by rw [List.length_set]; exact hi) hnd.2]
      cases hf : tl.find? (fun x => x.idx == i) with
      | some x => rfl
      | none =>
        dsimp only
        rw [List.getD_eq_getElem?_getD, List.getD_eq_getElem?_getD,
          List.getElem?_eq_getElem (by rw [List.length_set]; exact hi),
          List.getElem?_eq_getElem hi]
        simp [List.getElem_set, he]

theorem zz_write_getD (f : ZZEntry → ℚ) (entries : List ZZEntry) (n i : ℕ)
    (hi : i < n) (hnd : entries.Pairwise (fun a b => a.idx ≠ b.idx)) :
    (zz_write f entries n).getD i 0 =
      (match entries.find? (fun e => e.idx == i) with
       | some e => f e
       | none => 0) := by
  unfold zz_write
  rw [foldl_set_getD f entries _ i
    (by rw [List.length_replicate]; exact hi) hnd]
  cases hf : entries.find? (fun e => e.idx == i) with
  | some x => rfl
  | none =>
    dsimp only
    rw [List.getD_eq_getElem?_getD,
      List.getElem?_eq_getElem (by rw [List.length_replicate]; exact hi)]
    simp

theorem filterMap_id_replicate_none {α : Type} (k : ℕ) :
    (List.replicate k (none : Option α)).filterMap id = [] := by
  induction k with
  | zero => rfl
  | succ k ih => rw [List.replicate_succ, List.filterMap_cons]; exact ih

/-- Reading the non-missing slots of the densified direction column in
index order recovers the confirmed swings in chronological order (the
Reducer's list reversed). -/
theorem sentinel_filterMap (zz : List ZZEntry) :
    ∀ n : ℕ, zz.Chain' (fun a b => b.idx < a.idx) →
      (∀ e ∈ zz, e.idx < n) → (∀ e ∈ zz, e.swing ≠ 0) →
      ((zz_write (fun e => e.swing) zz n).map
          (fun q => if q = 0 then none else some q)).filterMap id =
        zz.reverse.map (fun e => e.swing) := by
  haveI : IsTrans ZZEntry (fun a b => b.idx < a.idx) :=
    ⟨fun a b c h1 h2 => h2.trans h1⟩
  induction zz with
  | nil =>
    intro n _ _ _
    have : zz_write (fun e : ZZEntry => e.swing) [] n = List.replicate n 0 := rfl
    rw [this]
    rw [List.map_replicate]
    simp only [if_pos rfl]
    exact filterMap_id_replicate_none n
  | cons e tl ih =>
    intro n hdesc hin hs0
    have hpwdesc := List.chain'_iff_pairwise.1 hdesc
    rw [List.pairwise_cons] at hpwdesc
    have hnd : (e :: tl).Pairwise (fun a b => a.idx ≠ b.idx) := by
      rw [List.pairwise_cons]
      exact ⟨fun b hb => (Nat.ne_of_gt (hpwdesc.1 b hb)),
        hpwdesc.2.imp (fun h => Nat.ne_of_gt h)⟩
    have hndtl : tl.Pairwise (fun a b => a.idx ≠ b.idx) :=
      (List.pairwise_cons.1 hnd).2
    have hein : e.idx < n := hin e (by simp)
    have hcol : (zz_write (fun x => x.swing) (e :: tl) n).map
        (fun q => if q = 0 then none else some q) =
        ((zz_write (fun x => x.swing) tl e.idx).map
          (fun q => if q = 0 then none else some q)) ++
          some e.swing :: List.replicate (n - e.idx - 1) none := by
      apply List.ext_getElem
      · rw [List.length_map, zz_write_length, List.length_append,
          List.length_map, zz_write_length, List.length_cons,
          List.length_replicate]
        omega
      · intro i h1 h2
        rw [List.length_map, zz_write_length] at h1
        have hwl : i < (zz_write (fun x => x.swing) (e :: tl) n).length := by
          rw [zz_write_length]; exact h1
        rw [List.getElem_map]
        have hgetD : (zz_write (fun x => x.swing) (e :: tl) n)[i] =
            (zz_write (fun x => x.swing) (e :: tl) n).getD i 0 := by
          rw [List.getD_eq_getElem?_getD, List.getElem?_eq_getElem hwl]
          rfl
        rw [hgetD, zz_write_getD _ _ _ _ h1 hnd]
        have hAlen : (((zz_write (fun x => x.swing) tl e.idx).map
            (fun q => if q = 0 then none else some q))).length = e.idx := by
          rw [List.length_map, zz_write_length]
        rcases Nat.lt_trichotomy i e.idx with hlt | heq | hgt
        · rw [List.getElem_append_left (by rw [hAlen]; exact hlt)]
          have hwl2 : i < (zz_write (fun x => x.swing) tl e.idx).length := by
            rw [zz_write_length]; exact hlt
          rw [List.getElem_map]
          have hgetD2 : (zz_write (fun x => x.swing) tl e.idx)[i] =
              (zz_write (fun x => x.swing) tl e.idx).getD i 0 := by
            rw [List.getD_eq_getElem?_getD, List.getElem?_eq_getElem hwl2]
            rfl
          rw [hgetD2, zz_write_getD _ _ _ _ hlt hndtl]
          rw [List.find?_cons_of_neg _ (by simp; omega)]
        · rw [List.getElem_append_right (by rw [hAlen]; omega)]
          rw [List.getElem_cons, dif_pos (by rw [hAlen]; omega)]
          rw [List.find?_cons_of_pos _ (by simp [heq])]
          simp only [if_neg (hs0 e (by simp))]
        · rw [List.getElem_append_right (by rw [hAlen]; omega)]
          have hfind : (e :: tl).find? (fun x => x.idx == i) = none := by
            rw [List.find?_eq_none]
            intro x hx
            simp only [beq_iff_eq]
            rcases hx with _ | ⟨_, hx⟩
            · omega
            · have := hpwdesc.1 x hx
              omega
          rw [hfind]
          dsimp only
          rw [if_pos rfl]
          rw [List.getElem_cons, dif_neg (by rw [hAlen]; omega)]
          rw [List.getElem_replicate]
    rw [hcol, List.filterMap_append, List.filterMap_cons]
    simp only [id]
    rw [filterMap_id_replicate_none]
    rw [ih e.idx (List.chain'_cons'.1 hdesc).2 (fun x hx => hpwdesc.1 x hx)
      (fun x hx => hs0 x (by simp [hx]))]
    rw [List.reverse_cons, List.map_append]
    rfl

/-! ### Pipeline glue lemmas -/

theorem v_series_some {s t : List ℚ} {L : ℤ} (h : v_series s L = some t) :
    t = s := by
  unfold v_series at h
  split at h
  · exact Option.noConfusion h
  · exact (Option.some.inj h).symm

theorem nb_rolling_hl_some {high low : List ℚ} {W : ℕ}
    {cands : List Extremum} (h : nb_rolling_hl high low W = some cands) :
    cands = hlCands high low W := by
  unfold nb_rolling_hl at h
  split at h
  · exact (Option.some.inj h).symm
  · exact Option.noConfusion h

theorem nb_map_zigzag_eq {entries : List ZZEntry} {n : ℕ}
    {s v d : List (Option ℚ)}
    (h : nb_map_zigzag entries n = some (s, v, d)) :
    (∀ e ∈ entries, e.idx < n) ∧
    s = (zz_write (fun e => e.swing) entries n).map
        (fun q => if q = 0 then none else some q) ∧
    v = ((zz_write (fun e => e.swing) entries n).zip
          (zz_write (fun e => e.value) entries n)).map
        (fun p => if p.1 = 0 then none else some p.2) ∧
    d = ((zz_write (fun e => e.swing) entries n).zip
          (zz_write (fun e => e.dev) entries n)).map
        (fun p => if p.1 = 0 then none else some p.2) := by
  unfold nb_map_zigzag at h
  split at h
  case isTrue hall =>
    simp only [Option.some.injEq, Prod.mk.injEq] at h
    refine ⟨?_, h.1.symm, h.2.1.symm, h.2.2.symm⟩
    rw [List.all_eq_true] at hall
    intro e he
    simpa using hall e he
  case isFalse => exact Option.noConfusion h

theorem foldl_const {α β : Type} (f : β → α → β) (s : β) (l : List α)
    (h : ∀ c ∈ l, f s c = s) : l.foldl f s = s := by
  induction l with
  | nil => rfl
  | cons c l ih =>
    rw [List.foldl_cons, h c (by simp)]
    exact ih (fun c' hc' => h c' (by simp [hc']))

theorem ser_shift_filterMap (k : ℕ) (xs : List (Option ℚ)) :
    (ser_shift k xs).filterMap id =
      (xs.take (xs.length - k)).filterMap id := by
  unfold ser_shift
  rw [List.take_append_eq_append_take, List.take_replicate,
    List.filterMap_append, filterMap_id_replicate_none,
    List.length_replicate, List.nil_append]

theorem flatMap_congr {α β : Type} {l : List α} {f g : α → List β}
    (h : ∀ a ∈ l, f a = g a) : l.flatMap f = l.flatMap g := by
  induction l with
  | nil => rfl
  | cons a l ih =>
    rw [List.flatMap_cons, List.flatMap_cons, h a (by simp),
      ih (fun a' ha' => h a' (by simp [ha']))]

theorem length_flatMap_pairs {α β : Type} (l : List α) (f g : α → β) :
    (l.flatMap (fun a => [f a, g a])).length = 2 * l.length := by
  induction l with
  | nil => rfl
  | cons a l ih =>
    rw [List.flatMap_cons, List.length_append, ih, List.length_cons]
    simp only [List.length_cons, List.length_nil]
    omega

/-- Inversion of a successful `zigzag` call (with no `fillna`): recover
the intermediate results of the three pipeline stages and the shape of the
returned columns. -/
theorem zigzag_ok_elim {high low : List ℚ} {close : Option (List ℚ)}
    {legs : Option ℤ} {deviation : Option ℚ}
    {retrace last_extreme : Option Bool} {offset : Option ℤ}
    {out : ZigzagOutput}
    (h : zigzag high low close legs deviation retrace last_extreme offset
        none = .ok (some out)) :
    ∃ legsv deviationv entries s v d,
      v_pos_default legs 10 = some legsv ∧
      v_pos_default_f deviation 5 = some deviationv ∧
      nb_rolling_hl high low legsv.toNat =
        some (hlCands high low legsv.toNat) ∧
      nb_find_zigzags (hlCands high low legsv.toNat) deviationv =
        some entries ∧
      nb_map_zigzag entries high.length = some (s, v, d) ∧
      out.swing = (if max (v_offset offset) 0 ≠ 0 then
        ser_shift (max (v_offset offset) 0).toNat s else s) ∧
      out.value = (if max (v_offset offset) 0 ≠ 0 then
        ser_shift (max (v_offset offset) 0).toNat v else v) ∧
      out.dev = (if max (v_offset offset) 0 ≠ 0 then
        ser_shift (max (v_offset offset) 0).toNat d else d) := by
  unfold zigzag at h
  cases hlegs : v_pos_default legs 10 with
  | none => rw [hlegs] at h; exact Except.noConfusion h
  | some legsv =>
  rw [hlegs] at h
  try dsimp only at h
  cases hhs : v_series high (legsv + 1) with
  | none => rw [hhs] at h; simp at h
  | some highv =>
  rw [hhs] at h
  try dsimp only at h
  cases hls : v_series low (legsv + 1) with
  | none => rw [hls] at h; simp at h
  | some lowv =>
  rw [hls] at h
  try dsimp only at h
  have hhv : highv = high := v_series_some hhs
  have hlv : lowv = low := v_series_some hls
  rw [hhv, hlv] at h
  cases hclose : (match close with
      | some c => (v_series c (legsv + 1)).isNone
      | none => false) with
  | true => rw [hclose] at h; simp at h
  | false =>
  rw [hclose] at h
  try dsimp only at h
  rw [if_neg (by simp)] at h
  cases hdev : v_pos_default_f deviation 5 with
  | none => rw [hdev] at h; exact Except.noConfusion h
  | some deviationv =>
  rw [hdev] at h
  try dsimp only at h
  cases hsc : nb_rolling_hl high low legsv.toNat with
  | none => rw [hsc] at h; exact Except.noConfusion h
  | some cands =>
  rw [hsc] at h
  try dsimp only at h
  have hcands : cands = hlCands high low legsv.toNat := nb_rolling_hl_some hsc
  subst hcands
  cases hrz : nb_find_zigzags (hlCands high low legsv.toNat) deviationv with
  | none => rw [hrz] at h; exact Except.noConfusion h
  | some entries =>
  rw [hrz] at h
  try dsimp only at h
  cases hmp : nb_map_zigzag entries high.length with
  | none => rw [hmp] at h; exact Except.noConfusion h
  | some svd =>
  rw [hmp] at h
  obtain ⟨s, v, d⟩ := svd
  refine ⟨legsv, deviationv, entries, s, v, d, rfl, rfl, hsc, hrz, hmp,
    ?_, ?_, ?_⟩ <;>
  · simp only [Except.ok.injEq, Option.some.injEq] at h
    rw [← h]

theorem zz_write_mem (f : ZZEntry → ℚ) (entries : List ZZEntry) (n : ℕ) :
    ∀ x ∈ zz_write f entries n, x = 0 ∨ ∃ e ∈ entries, x = f e := by
  unfold zz_write
  suffices h : ∀ init : List ℚ,
      ∀ x ∈ entries.foldl (fun a e => a.set e.idx (f e)) init,
        x ∈ init ∨ ∃ e ∈ entries, x = f e by
    intro x hx
    rcases h (List.replicate n 0) x hx with h' | h'
    · exact Or.inl (List.eq_of_mem_replicate h')
    · exact Or.inr h'
  induction entries with
  | nil =>
    intro init x hx
    exact Or.inl hx
  | cons e tl ih =>
    intro init x hx
    rw [List.foldl_cons] at hx
    rcases ih _ x hx with h' | ⟨e', he', hx'⟩
    · rcases List.mem_or_eq_of_mem_set h' with h'' | h''
      · exact Or.inl h''
      · exact Or.inr ⟨e, by simp, h''⟩
    · exact Or.inr ⟨e', List.mem_cons_of_mem _ he', hx'⟩

/-- A step of the backward walk does nothing when the pending swing is the
only entry, is a HIGH, and the candidate's value equals the pending value
(as on a constant series). -/
theorem zzStep_fixed (dv : ℚ) (hdv : 0 ≤ dv) (p : ZZEntry) (c : Extremum)
    (hp : p.swing = 1) (hvc : c.value = p.value) :
    zzStep dv [p] c = [p] := by
  simp only [zzStep]
  rw [if_neg (by rw [hp]; norm_num)]
  by_cases hc : c.swing = 1
  · rw [if_pos hc, if_neg (by simp)]
  · rw [if_neg hc]
    rw [if_neg ?_]
    rw [hvc, sub_self, zero_div]
    rw [gt_iff_lt, not_lt]
    exact mul_nonneg (by norm_num) hdv

theorem map_sentinel_single (n i0 : ℕ) (a : ℚ) (ha : a ≠ 0) :
    ((List.replicate n (0 : ℚ)).set i0 a).map
        (fun q => if q = 0 then none else some q) =
      (List.replicate n (none : Option ℚ)).set i0 (some a) := by
  apply List.ext_getElem
  · simp
  · intro i h1 h2
    rw [List.length_map, List.length_set, List.length_replicate] at h1
    rw [List.getElem_map, List.getElem_set, List.getElem_set]
    by_cases hii : i0 = i
    · rw [if_pos hii, if_pos hii, if_neg ha]
    · rw [if_neg hii, if_neg hii, List.getElem_replicate,
        List.getElem_replicate, if_pos rfl]

theorem zip_sentinel_single (n i0 : ℕ) (a b : ℚ) (ha : a ≠ 0) :
    ((((List.replicate n (0 : ℚ)).set i0 a)).zip
        ((List.replicate n (0 : ℚ)).set i0 b)).map
        (fun p => if p.1 = 0 then none else some p.2) =
      (List.replicate n (none : Option ℚ)).set i0 (some b) := by
  apply List.ext_getElem
  · simp
  · intro i h1 h2
    rw [List.length_map, List.length_zip, List.length_set,
      List.length_set, List.length_replicate] at h1
    rw [List.getElem_map, List.getElem_zip, List.getElem_set,
      List.getElem_set, List.getElem_set]
    by_cases hii : i0 = i
    · rw [if_pos hii, if_pos hii, if_pos hii, if_neg ha]
    · rw [if_neg hii, if_neg hii, if_neg hii]
      simp

theorem getD_replicate {v : ℚ} {n j : ℕ} (hj : j < n) :
    (List.replicate n v).getD j 0 = v := by
  rw [List.getD_eq_getElem?_getD,
    List.getElem?_eq_getElem (by rw [List.length_replicate]; exact hj),
    List.getElem_replicate]
  rfl

/-! ### Constant-series evaluation lemmas -/

theorem hlBlock_flat (v : ℚ) (n L i : ℕ) (hiL : L ≤ i)
    (hiu : i + (L + 1) < n) :
    hlBlock (List.replicate n v) (List.replicate n v) L (L + 1) i =
      [⟨i, -1, v⟩, ⟨i, 1, v⟩] := by
  unfold hlBlock
  dsimp only
  rw [getD_replicate (show i < n by omega)]
  have h1 : (List.range' (i - L) (L + (L + 1))).all
      (fun j => decide (v ≤ (List.replicate n v).getD j 0)) = true := by
    rw [List.all_eq_true]
    intro j hj
    rw [List.mem_range'_1] at hj
    rw [getD_replicate (show j < n by omega)]
    simp
  have h2 : (List.range' (i - L) (L + (L + 1))).all
      (fun j => decide ((List.replicate n v).getD j 0 ≤ v)) = true := by
    rw [List.all_eq_true]
    intro j hj
    rw [List.mem_range'_1] at hj
    rw [getD_replicate (show j < n by omega)]
    simp
  rw [if_pos h1, if_pos h2]
  rfl

theorem hlCands_flat (v : ℚ) (n W : ℕ) :
    hlCands (List.replicate n v) (List.replicate n v) W =
      (List.range' (W / 2) ((n - (W / 2 + 1)) - W / 2)).flatMap
        (fun i => [⟨i, -1, v⟩, ⟨i, 1, v⟩]) := by
  unfold hlCands
  dsimp only
  rw [List.length_replicate]
  apply flatMap_congr
  intro i hi
  rw [List.mem_range'_1] at hi
  exact hlBlock_flat v n (W / 2) i hi.1 (by omega)

theorem nb_find_zigzags_flat (v dv : ℚ) (hdv : 0 ≤ dv) (L c' : ℕ) :
    nb_find_zigzags ((List.range' L (c' + 1)).flatMap
        (fun i => [⟨i, -1, v⟩, ⟨i, 1, v⟩])) dv =
      some [⟨L + c', 1, v, 0⟩] := by
  rw [List.range'_concat, List.flatMap_append]
  have hsing : (([L + 1 * c'] : List ℕ).flatMap
      (fun i => [(⟨i, -1, v⟩ : Extremum), ⟨i, 1, v⟩])) =
      [⟨L + 1 * c', -1, v⟩, ⟨L + 1 * c', 1, v⟩] := by
    simp
  rw [hsing]
  have hassoc : (List.range' L c').flatMap
        (fun i => [(⟨i, -1, v⟩ : Extremum), ⟨i, 1, v⟩]) ++
        [⟨L + 1 * c', -1, v⟩, ⟨L + 1 * c', 1, v⟩] =
      ((List.range' L c').flatMap
        (fun i => [(⟨i, -1, v⟩ : Extremum), ⟨i, 1, v⟩]) ++
        [⟨L + 1 * c', -1, v⟩]) ++ [⟨L + 1 * c', 1, v⟩] := by
    rw [List.append_assoc]
    rfl
  rw [hassoc]
  unfold nb_find_zigzags
  rw [List.getLast?_concat, List.dropLast_concat]
  dsimp only
  rw [foldl_const _ _ _ ?_]
  · have : L + 1 * c' = L + c' := by omega
    rw [this]
    rfl
  · intro c hc
    rw [List.mem_reverse] at hc
    have hcv : c.value = v := by
      rcases List.mem_append.1 hc with hA | hx
      · rw [List.mem_flatMap] at hA
        obtain ⟨i, -, hA⟩ := hA
        rcases hA with _ | ⟨_, hA⟩
        · rfl
        rcases hA with _ | ⟨_, hA⟩
        · rfl
        · cases hA
      · rw [List.mem_singleton] at hx
        rw [hx]
    exact zzStep_fixed dv hdv _ c rfl hcv

theorem nb_map_zigzag_single (i0 n : ℕ) (hi : i0 < n) (sw val dev : ℚ)
    (hsw : sw ≠ 0) :
    nb_map_zigzag [⟨i0, sw, val, dev⟩] n =
      some ((List.replicate n none).set i0 (some sw),
            (List.replicate n none).set i0 (some val),
            (List.replicate n none).set i0 (some dev)) := by
  unfold nb_map_zigzag
  rw [if_pos (by simp [hi])]
  have hw : ∀ f : ZZEntry → ℚ, zz_write f [⟨i0, sw, val, dev⟩] n =
      (List.replicate n 0).set i0 (f ⟨i0, sw, val, dev⟩) := fun f => rfl
  simp only [hw]
  rw [map_sentinel_single n i0 sw hsw, zip_sentinel_single n i0 sw val hsw,
    zip_sentinel_single n i0 sw dev hsw]

/-! ### Claim theorems -/

/-- C1: the claim says that when the Scanner produces an empty candidate
list (e.g. a validated series of exactly the minimum length `legs + 1`
with `legs` even) the pipeline returns a recognized no-result without
raising.  On the code, validation accepts an 11-bar series with the
default `legs = 10`, the Scanner's center range `range(5, 5)` is empty,
and the Reducer's seeding read `idx[-1]` is an out-of-bounds access on the
empty candidate array, which raises — the pipeline errors instead of
returning the no-result value. -/
theorem zigzag_min_length_raises :
    zigzag (List.replicate 11 1) (List.replicate 11 1) none none none none
        none none none =
      .error "zigzag: index out of range on empty extremum list" := by
  with_unfolding_all rfl

/-- C2 counterexample: a constant series of length 5 with `legs = 2`
(length ≥ legs + 1) does not yield an all-missing result: the densified
direction column carries a HIGH pivot at position 2 (the last scanned
center, from the Reducer's seed), so the claimed all-missing output is
false. -/
theorem zigzag_flat_counterexample :
    zigzag [5, 5, 5, 5, 5] [5, 5, 5, 5, 5] none (some 2) none none none
        none none =
      .ok (some { swing := [none, none, some 1, none, none],
                  value := [none, none, some 5, none, none],
                  dev := [none, none, some 0, none, none],
                  deviationParam := 5, legsParam := 2,
                  category := "trend" }) ∧
      ([none, none, some (1 : ℚ), none, none] ≠ List.replicate 5 none) :=
  ⟨by with_unfolding_all rfl, by decide⟩

/-- C2 (amended): a constant high/low series long enough for the Scanner
to emit candidates (`n > 2⌊legs/2⌋ + 1`) and small enough not to overflow
the candidate buffers (`2(n − 2⌊legs/2⌋ − 1) ≤ n`) yields a result that is
missing everywhere except one position: the last scanned center
`n − ⌊legs/2⌋ − 2` carries a HIGH pivot with the constant value and
deviation `0` (the Reducer's seed swing); no other pivot is produced, so
the output is never all-missing. -/
theorem zigzag_flat_single_pivot (v : ℚ) (n : ℕ) (legs : ℤ)
    (hlegs : 0 < legs) (hmin : legs + 1 ≤ (n : ℤ))
    (hcent : legs.toNat / 2 + (legs.toNat / 2 + 1) < n)
    (hcap : 2 * (n - (2 * (legs.toNat / 2) + 1)) ≤ n) :
    zigzag (List.replicate n v) (List.replicate n v) none (some legs) none
        none none none none =
      .ok (some { swing := (List.replicate n none).set
                    (n - legs.toNat / 2 - 2) (some 1),
                  value := (List.replicate n none).set
                    (n - legs.toNat / 2 - 2) (some v),
                  dev := (List.replicate n none).set
                    (n - legs.toNat / 2 - 2) (some 0),
                  deviationParam := 5, legsParam := legs,
                  category := "trend" }) := by
  set L := legs.toNat / 2 with hL
  unfold zigzag
  rw [show v_pos_default (some legs) 10 = some legs by
    simp [v_pos_default, hlegs]]
  dsimp only
  rw [show v_series (List.replicate n v) (legs + 1) =
      some (List.replicate n v) by
    unfold v_series
    rw [if_neg (by rw [List.length_replicate]; omega)]]
  dsimp only
  rw [if_neg (show ¬(false = true) by simp)]
  rw [show v_pos_default_f none 5 = some 5 from rfl]
  dsimp only
  have hcands : hlCands (List.replicate n v) (List.replicate n v)
      legs.toNat =
      (List.range' L ((n - (L + 1)) - L)).flatMap
        (fun i => [⟨i, -1, v⟩, ⟨i, 1, v⟩]) := by
    rw [hlCands_flat v n legs.toNat]
  have hscan : nb_rolling_hl (List.replicate n v) (List.replicate n v)
      legs.toNat =
      some ((List.range' L ((n - (L + 1)) - L)).flatMap
        (fun i => [⟨i, -1, v⟩, ⟨i, 1, v⟩])) := by
    unfold nb_rolling_hl
    rw [hcands, if_pos ?_]
    rw [length_flatMap_pairs, List.length_range', List.length_replicate]
    omega
  rw [hscan]
  dsimp only
  have hcnt : (n - (L + 1)) - L = (n - 2 * L - 2) + 1 := by omega
  rw [hcnt, nb_find_zigzags_flat v 5 (by norm_num) L (n - 2 * L - 2)]
  dsimp only
  have hi0 : L + (n - 2 * L - 2) = n - L - 2 := by omega
  rw [hi0]
  rw [show (List.replicate n v).length = n from List.length_replicate ..]
  rw [nb_map_zigzag_single (n - L - 2) n (by omega) 1 v 0 (by norm_num)]
  dsimp only
  rw [if_neg (show ¬(max (v_offset none) 0 ≠ 0) by simp [v_offset])]
  rfl

/-- C2 (amended) witness: the concrete instance `v = 5`, `n = 5`,
`legs = 2` of `zigzag_flat_single_pivot`. -/
theorem zigzag_flat_single_pivot_witness :
    (0 : ℤ) < 2 ∧ (2 : ℤ) + 1 ≤ (5 : ℕ) ∧
    zigzag (List.replicate 5 (5 : ℚ)) (List.replicate 5 5) none (some 2)
        none none none none none =
      .ok (some { swing := (List.replicate 5 none).set 2 (some 1),
                  value := (List.replicate 5 none).set 2 (some 5),
                  dev := (List.replicate 5 none).set 2 (some 0),
                  deviationParam := 5, legsParam := 2,
                  category := "trend" }) :=
  ⟨by norm_num, by norm_num,
    zigzag_flat_single_pivot 5 5 2 (by norm_num) (by norm_num)
      (by decide) (by decide)⟩

/-- C6 counterexample: an explicitly supplied negative offset is not
rejected with a caller-visible failure: the call with `offset = -3`
returns a normal DataFrame, identical to the `offset = 0` result — the
negative value is silently clamped (zigzag.py line 170). -/
theorem zigzag_negative_offset_counterexample :
    zigzag [10, 1, 10, 1, 10, 1, 10] [10, 1, 10, 1, 10, 1, 10] none (some 2)
        none none none (some (-3)) none =
      .ok (some { swing := [none, some (-1), some 1, some (-1), some 1,
                    none, none],
                  value := [none, some 1, some 10, some 1, some 10, none,
                    none],
                  dev := [none, some 0, some 900, some 90, some 900, none,
                    none],
                  deviationParam := 5, legsParam := 2,
                  category := "trend" }) ∧
    zigzag [10, 1, 10, 1, 10, 1, 10] [10, 1, 10, 1, 10, 1, 10] none (some 2)
        none none none (some (-3)) none =
      zigzag [10, 1, 10, 1, 10, 1, 10] [10, 1, 10, 1, 10, 1, 10] none
        (some 2) none none none (some 0) none :=
  ⟨by with_unfolding_all rfl, by with_unfolding_all rfl⟩

/-- C6 (amended): an explicitly supplied non-positive offset is silently
clamped to `0` before the shift is applied (`offset = max(offset, 0)`,
zigzag.py line 170): the call behaves exactly like `offset = 0` and does
not fail. -/
theorem zigzag_negative_offset_clamped (high low : List ℚ)
    (close : Option (List ℚ)) (legs : Option ℤ) (deviation : Option ℚ)
    (retrace last_extreme : Option Bool) (fillna : Option ℚ) (k : ℤ)
    (hk : k ≤ 0) :
    zigzag high low close legs deviation retrace last_extreme (some k)
        fillna =
      zigzag high low close legs deviation retrace last_extreme (some 0)
        fillna := by
  unfold zigzag
  rw [show max (v_offset (some k)) 0 = 0 from max_eq_right hk,
    show max (v_offset (some 0)) 0 = 0 by simp [v_offset]]

/-- C6 (amended) witness: `offset = -3` on a concrete series. -/
theorem zigzag_negative_offset_clamped_witness :
    (-3 : ℤ) ≤ 0 ∧
    zigzag [10, 1, 10, 1, 10, 1, 10] [10, 1, 10, 1, 10, 1, 10] none (some 2)
        none none none (some (-3)) (some 0) =
      zigzag [10, 1, 10, 1, 10, 1, 10] [10, 1, 10, 1, 10, 1, 10] none
        (some 2) none none none (some 0) (some 0) :=
  ⟨by norm_num,
    zigzag_negative_offset_clamped [10, 1, 10, 1, 10, 1, 10]
      [10, 1, 10, 1, 10, 1, 10] none (some 2) none none none (some 0) (-3)
      (by norm_num)⟩

/-- C10: the returned frame does not depend on `retrace` or
`last_extreme`: they are validated (zigzag.py lines 167-168) and never
used, so two calls differing only in those arguments return identical
results (all three columns, the name-determining parameters, and the
category). -/
theorem zigzag_ignores_retrace_last_extreme (high low : List ℚ)
    (close : Option (List ℚ)) (legs : Option ℤ) (deviation : Option ℚ)
    (r1 r2 le1 le2 : Option Bool) (offset : Option ℤ)
    (fillna : Option ℚ) :
    zigzag high low close legs deviation r1 le1 offset fillna =
      zigzag high low close legs deviation r2 le2 offset fillna := rfl

/-- C3 counterexample: on `high = low = [10,1,10,1,10,1,10]` with
`legs = 2`, `deviation = 5`, the chronologically latest swing sits at
index 4 (indices 5 and 6 are missing) and its reported deviation is
`900`, not `0` as the claim asserts for the most recent swing; meanwhile
the swing at index 1 — which is not the most recent — is the one reported
with deviation `0` (and `0 < 5`, the threshold). -/
theorem zigzag_dev_claim_counterexample :
    zigzag [10, 1, 10, 1, 10, 1, 10] [10, 1, 10, 1, 10, 1, 10] none (some 2)
        none none none none none =
      .ok (some { swing := [none, some (-1), some 1, some (-1), some 1,
                    none, none],
                  value := [none, some 1, some 10, some 1, some 10, none,
                    none],
                  dev := [none, some 0, some 900, some 90, some 900, none,
                    none],
                  deviationParam := 5, legsParam := 2,
                  category := "trend" }) ∧
      (some (900 : ℚ) ≠ some (0 : ℚ)) ∧ ¬((5 : ℚ) ≤ 0) :=
  ⟨by with_unfolding_all rfl, by norm_num, by norm_num⟩

/-- C3 (amended) witness: the concrete Reducer run on
`high = low = [10,1,10,1,10,1,10]`, `legs = 2`, threshold `5`. -/
theorem nb_find_zigzags_invD_witness :
    (∀ x ∈ ([10, 1, 10, 1, 10, 1, 10] : List ℚ), 0 < x) ∧
    (([⟨4, 1, 10, 900⟩, ⟨3, -1, 1, 90⟩, ⟨2, 1, 10, 900⟩, ⟨1, -1, 1, 0⟩] :
        List ZZEntry).Chain' (fun a b =>
          a.dev = 100 * (a.swing * ((a.value - b.value) / b.value)) ∧
            (5 : ℚ) < a.dev) ∧
      (∀ e, ([⟨4, 1, 10, 900⟩, ⟨3, -1, 1, 90⟩, ⟨2, 1, 10, 900⟩,
          (⟨1, -1, 1, 0⟩ : ZZEntry)] : List ZZEntry).getLast? = some e →
        e.dev = 0)) :=
  ⟨by decide,
    nb_find_zigzags_invD (by decide) (by decide) rfl
      (show nb_find_zigzags (hlCands [10, 1, 10, 1, 10, 1, 10]
          [10, 1, 10, 1, 10, 1, 10] 2) 5 =
        some [⟨4, 1, 10, 900⟩, ⟨3, -1, 1, 90⟩, ⟨2, 1, 10, 900⟩,
          ⟨1, -1, 1, 0⟩] by with_unfolding_all rfl)⟩

/-- C4 counterexample: on `high = [9,8,7,6,5,10,4,3]`,
`low = [5,1,5,2,5,6,7,9]` with `legs = 2` the Scanner finds LOW@1 (value
1), LOW@3 (value 2), HIGH@5 (value 10).  During the walk the pending swing
is LOW@3 (value 2) with one swing already in the list besides it (the
seeded HIGH@5), and the candidate LOW@1 (value 1) is same-direction and
strictly more extreme — yet no overwrite happens (the gate is
`zigzags > 1`): the output keeps value 2 at position 3 and leaves
position 1 missing. -/
theorem zigzag_amendment_gate_counterexample :
    zigzag [9, 8, 7, 6, 5, 10, 4, 3] [5, 1, 5, 2, 5, 6, 7, 9] none (some 2)
        none none none none none =
      .ok (some { swing := [none, none, none, some (-1), none, some 1,
                    none, none],
                  value := [none, none, none, some 2, none, some 10, none,
                    none],
                  dev := [none, none, none, some 0, none, some 400, none,
                    none],
                  deviationParam := 5, legsParam := 2,
                  category := "trend" }) ∧
      (some (2 : ℚ) ≠ some (1 : ℚ)) :=
  ⟨by with_unfolding_all rfl, by norm_num⟩

/-- C4 (amended): during the backward walk, when the candidate has the
same direction as the pending swing, a strictly more extreme value, and at
least **two** swings besides the pending one are already in the list (the
source gate `zigzags > 1`), the pending swing's position and value are
overwritten with the candidate's, keeping the pending deviation slot, the
deviation of the swing immediately before the pending one is recomputed
against the candidate and restamped, and no new list entry is created
(the length is unchanged). -/
theorem zzStep_amendment (dv : ℚ) (p q : ZZEntry) (rest : List ZZEntry)
    (c : Extremum) (hrest : rest ≠ [])
    (hdir : p.swing = -1 ∨ p.swing = 1) (hsame : c.swing = p.swing)
    (hext : if p.swing = -1 then c.value < p.value else p.value < c.value) :
    zzStep dv (p :: q :: rest) c =
      ⟨c.idx, c.swing, c.value, p.dev⟩ ::
        { q with dev := if p.swing = -1 then
            100 * ((q.value - c.value) / c.value)
          else 100 * ((c.value - q.value) / c.value) } :: rest ∧
    (zzStep dv (p :: q :: rest) c).length = (p :: q :: rest).length := by
  have hlen : 1 < (q :: rest).length := by
    rw [List.length_cons]
    have := List.length_pos.2 hrest
    omega
  rcases hdir with hm | h1
  · rw [if_pos hm] at hext
    have hstep : zzStep dv (p :: q :: rest) c =
        ⟨c.idx, c.swing, c.value, p.dev⟩ ::
          { q with dev := 100 * ((q.value - c.value) / c.value) } :: rest := by
      simp only [zzStep]
      rw [if_pos hm, if_pos (hsame.trans hm), if_pos ⟨hext, hlen⟩]
    refine ⟨?_, ?_⟩
    · rw [hstep, if_pos hm]
    · rw [hstep]
      simp
  · rw [if_neg (by rw [h1]; norm_num)] at hext
    have hstep : zzStep dv (p :: q :: rest) c =
        ⟨c.idx, c.swing, c.value, p.dev⟩ ::
          { q with dev := 100 * ((c.value - q.value) / c.value) } :: rest := by
      simp only [zzStep]
      rw [if_neg (by rw [h1]; norm_num), if_pos (hsame.trans h1),
        if_pos ⟨hext, hlen⟩]
    refine ⟨?_, ?_⟩
    · rw [hstep, if_neg (by rw [h1]; norm_num)]
    · rw [hstep]
      simp

/-- C4 (amended) witness: a concrete amendment step. -/
theorem zzStep_amendment_witness :
    zzStep 5 [⟨3, -1, 2, 0⟩, ⟨5, 1, 10, 400⟩, ⟨6, 1, 3, 0⟩] ⟨1, -1, 1⟩ =
      [⟨1, -1, 1, 0⟩, ⟨5, 1, 10, 900⟩, ⟨6, 1, 3, 0⟩] := by
  have h := zzStep_amendment 5 ⟨3, -1, 2, 0⟩ ⟨5, 1, 10, 400⟩ [⟨6, 1, 3, 0⟩]
    ⟨1, -1, 1⟩ (by simp) (Or.inl rfl) rfl (by norm_num)
  exact h.1.trans (by with_unfolding_all rfl)

/-- C5: for every input on which `zigzag` returns a DataFrame (no
`fillna`), reading the non-missing entries of the densified direction
column in chronological order yields strictly alternating directions:
each is the negation of the previous one (`+1`/`-1` alternate). -/
theorem zigzag_alternation (high low : List ℚ) (close : Option (List ℚ))
    (legs : Option ℤ) (deviation : Option ℚ)
    (retrace last_extreme : Option Bool) (offset : Option ℤ)
    (out : ZigzagOutput)
    (h : zigzag high low close legs deviation retrace last_extreme offset
        none = .ok (some out)) :
    (out.swing.filterMap id).Chain' (fun a b => b = -a) := by
  obtain ⟨legsv, deviationv, entries, s, v, d, -, -, -, hrz, hmp, hsw, -, -⟩ :=
    zigzag_ok_elim h
  obtain ⟨hne, hsigns, halt, hidx⟩ := nb_find_zigzags_invA hrz
  obtain ⟨hbound, hseq, -, -⟩ := nb_map_zigzag_eq hmp
  have hs0 : ∀ e ∈ entries, e.swing ≠ 0 := by
    intro e he
    rcases hsigns e he with h1 | h1 <;> rw [h1] <;> norm_num
  have hfm : s.filterMap id = entries.reverse.map (fun e => e.swing) := by
    rw [hseq]
    exact sentinel_filterMap entries high.length hidx hbound hs0
  have haltrev : (entries.reverse.map (fun e => e.swing)).Chain'
      (fun a b => b = -a) := by
    rw [List.chain'_map, List.chain'_reverse]
    exact halt
  rw [hsw]
  by_cases hoff : max (v_offset offset) 0 ≠ 0
  · rw [if_pos hoff]
    have hpre : ((ser_shift (max (v_offset offset) 0).toNat s).filterMap
        id) <+: (s.filterMap id) := by
      rw [ser_shift_filterMap]
      have htp : s.take (s.length - (max (v_offset offset) 0).toNat) <+: s :=
        ⟨s.drop (s.length - (max (v_offset offset) 0).toNat),
          List.take_append_drop _ _⟩
      exact List.IsPrefix.filterMap id htp
    exact List.Chain'.prefix (by rw [hfm]; exact haltrev) hpre
  · rw [if_neg hoff]
    rw [hfm]
    exact haltrev

/-- C5 witness: the concrete run on `high = low = [10,1,10,1,10,1,10]`,
`legs = 2`. -/
theorem zigzag_alternation_witness :
    (({ swing := [none, some (-1 : ℚ), some 1, some (-1), some 1, none,
          none],
        value := [none, some 1, some 10, some 1, some 10, none, none],
        dev := [none, some 0, some 900, some 90, some 900, none, none],
        deviationParam := 5, legsParam := 2,
        category := "trend" } : ZigzagOutput).swing.filterMap id).Chain'
      (fun a b => b = -a) :=
  zigzag_alternation [10, 1, 10, 1, 10, 1, 10] [10, 1, 10, 1, 10, 1, 10]
    none (some 2) none none none none _ (by with_unfolding_all rfl)

/-- C7 counterexample: the Scanner does not emit the candidate list for
every input: on the all-equal arrays `[5,5,5]` with `W = 1` every center
qualifies as both a LOW and a HIGH, producing 4 extrema, which overflows
the buffers preallocated with capacity `m = 3` (`zeros(m)`, zigzag.py
lines 17-19) — the write `idx[extremums] = i` goes out of bounds and the
call raises instead of returning the list the claim describes. -/
theorem nb_rolling_hl_overflow_counterexample :
    nb_rolling_hl [5, 5, 5] [5, 5, 5] 1 = none ∧
      hlCands [5, 5, 5] [5, 5, 5] 1 =
        [⟨0, -1, 5⟩, ⟨0, 1, 5⟩, ⟨1, -1, 5⟩, ⟨1, 1, 5⟩] :=
  ⟨by with_unfolding_all rfl, by with_unfolding_all rfl⟩

/-- C7 (amended): whenever the Scanner returns a candidate list (i.e. at
most `n` extrema are emitted, so the preallocated buffers do not
overflow), that list contains an extremum `e` exactly when `e` is centered
at some `i ∈ [left, n − right)` (`left = ⌊W/2⌋`, `right = left + 1`) and
is the LOW candidate (direction `-1`, value `low[i]`, `low[i] ≤` every
value of `low[i−left .. i+right)`) or the HIGH candidate (direction `1`,
value `high[i]`, `high[i] ≥` every value of `high[i−left .. i+right)`);
ties satisfy the comparisons, the two conditions are independent, and the
list is ordered by position. -/
theorem nb_rolling_hl_spec (high low : List ℚ) (W n : ℕ) (hW : 1 ≤ W)
    (hh : high.length = n) (hl : low.length = n) (out : List Extremum)
    (hout : nb_rolling_hl high low W = some out) :
    (∀ e : Extremum, e ∈ out ↔
      (W / 2 ≤ e.idx ∧ e.idx + (W / 2 + 1) < n ∧
        ((e.swing = -1 ∧ e.value = low.getD e.idx 0 ∧
            (∀ j, e.idx - W / 2 ≤ j → j < e.idx + (W / 2 + 1) →
              low.getD e.idx 0 ≤ low.getD j 0)) ∨
         (e.swing = 1 ∧ e.value = high.getD e.idx 0 ∧
            (∀ j, e.idx - W / 2 ≤ j → j < e.idx + (W / 2 + 1) →
              high.getD j 0 ≤ high.getD e.idx 0))))) ∧
    out.Pairwise (fun a b => a.idx ≤ b.idx) := by
  have hcands := nb_rolling_hl_some hout
  subst hcands
  constructor
  · intro e
    rw [mem_hlCands, hh]
  · refine (hlCands_pairwise high low W).imp ?_
    intro a b hab
    rcases hab with h' | ⟨h', -⟩
    · exact le_of_lt h'
    · exact le_of_eq h'

/-- C7 (amended) witness: `high = [1,2]`, `low = [0,1]`, `W = 1`. -/
theorem nb_rolling_hl_spec_witness :
    (1 : ℕ) ≤ 1 ∧
      ([⟨0, -1, 0⟩, ⟨0, 1, (1 : ℚ)⟩] : List Extremum).Pairwise
        (fun a b => a.idx ≤ b.idx) :=
  ⟨le_refl 1,
    (nb_rolling_hl_spec [1, 2] [0, 1] 1 2 (le_refl 1) rfl rfl
      [⟨0, -1, 0⟩, ⟨0, 1, 1⟩] (by with_unfolding_all rfl)).2⟩

theorem ser_shift_zero (xs : List (Option ℚ)) : ser_shift 0 xs = xs := by
  unfold ser_shift
  rw [List.replicate_zero, List.nil_append, List.take_length]

/-- C8: calling `zigzag` with a non-negative offset `k` returns exactly
the `offset = 0` result with all three columns shifted forward by `k`
positions, the first `k` filled with the missing marker (no `fillna`
post-processing). -/
theorem zigzag_offset_shift_law (high low : List ℚ)
    (close : Option (List ℚ)) (legs : Option ℤ) (deviation : Option ℚ)
    (retrace last_extreme : Option Bool) (k : ℕ) :
    zigzag high low close legs deviation retrace last_extreme
        (some (k : ℤ)) none =
      (zigzag high low close legs deviation retrace last_extreme (some 0)
          none).map (Option.map (fun o =>
        { o with swing := ser_shift k o.swing,
                 value := ser_shift k o.value,
                 dev := ser_shift k o.dev })) := by
  unfold zigzag
  rw [show max (v_offset (some (k : ℤ))) 0 = (k : ℤ) from
    max_eq_left (Int.natCast_nonneg k)]
  rw [show max (v_offset (some (0 : ℤ))) 0 = 0 by simp [v_offset]]
  cases v_pos_default legs 10 with
  | none => rfl
  | some legsv =>
  dsimp only
  cases v_series high (legsv + 1) with
  | none => rfl
  | some highv =>
  cases v_series low (legsv + 1) with
  | none => rfl
  | some lowv =>
  dsimp only
  cases hclose : (match close with
      | some c => (v_series c (legsv + 1)).isNone
      | none => false) with
  | true => rw [if_pos rfl]; rfl
  | false =>
  rw [if_neg (show ¬(false = true) by simp),
    if_neg (show ¬(false = true) by simp)]
  cases v_pos_default_f deviation 5 with
  | none => rfl
  | some deviationv =>
  dsimp only
  cases nb_rolling_hl highv lowv legsv.toNat with
  | none => rfl
  | some cands =>
  dsimp only
  cases nb_find_zigzags cands deviationv with
  | none => rfl
  | some entries =>
  dsimp only
  cases nb_map_zigzag entries highv.length with
  | none => rfl
  | some svd =>
  obtain ⟨s, v, d⟩ := svd
  dsimp only
  by_cases hk : k = 0
  · subst hk
    simp [ser_shift_zero, Except.map]
  · have hkz : (k : ℤ) ≠ 0 := by exact_mod_cast hk
    have h00 : ¬((0 : ℤ) ≠ 0) := by simp
    rw [if_pos hkz, if_pos hkz, if_pos hkz, if_neg h00, if_neg h00,
      if_neg h00]
    rw [show ((k : ℤ)).toNat = k from Int.toNat_natCast k]
    rfl

/-- C9: in the Densifier's output (before offset shifting and fill
post-processing), missingness is synchronized across the three columns:
at every index either all three are missing — exactly when the direction
scatter-array still holds the `0` sentinel there — or all three are
present and the direction is `+1` or `-1`. -/
theorem nb_map_zigzag_missing_sync (entries : List ZZEntry) (n : ℕ)
    (s v d : List (Option ℚ))
    (hsigns : ∀ e ∈ entries, e.swing = 1 ∨ e.swing = -1)
    (h : nb_map_zigzag entries n = some (s, v, d)) :
    ∀ i, i < n →
      (((zz_write (fun e => e.swing) entries n).getD i 0 = 0 ∧
        s.getD i none = none ∧ v.getD i none = none ∧
        d.getD i none = none) ∨
       ((zz_write (fun e => e.swing) entries n).getD i 0 ≠ 0 ∧
        (∃ sw, (sw = 1 ∨ sw = -1) ∧ s.getD i none = some sw) ∧
        (∃ q, v.getD i none = some q) ∧ (∃ q, d.getD i none = some q))) := by
  obtain ⟨hb, hs, hv, hd⟩ := nb_map_zigzag_eq h
  intro i hi
  have hWl : (zz_write (fun e => e.swing) entries n).length = n :=
    zz_write_length _ _ _
  have hVl : (zz_write (fun e => e.value) entries n).length = n :=
    zz_write_length _ _ _
  have hDl : (zz_write (fun e => e.dev) entries n).length = n :=
    zz_write_length _ _ _
  have hiW : i < (zz_write (fun e => e.swing) entries n).length := by
    rw [hWl]; exact hi
  have hiV : i < (zz_write (fun e => e.value) entries n).length := by
    rw [hVl]; exact hi
  have hiD : i < (zz_write (fun e => e.dev) entries n).length := by
    rw [hDl]; exact hi
  have hWgetD : (zz_write (fun e => e.swing) entries n).getD i 0 =
      (zz_write (fun e => e.swing) entries n)[i] := by
    rw [List.getD_eq_getElem?_getD, List.getElem?_eq_getElem hiW]
    rfl
  have hsget : s.getD i none =
      (if (zz_write (fun e => e.swing) entries n)[i] = 0 then none
       else some ((zz_write (fun e => e.swing) entries n)[i])) := by
    rw [hs, List.getD_eq_getElem?_getD,
      List.getElem?_eq_getElem (by rw [List.length_map, hWl]; exact hi),
      List.getElem_map]
    rfl
  have hvget : v.getD i none =
      (if (zz_write (fun e => e.swing) entries n)[i] = 0 then none
       else some ((zz_write (fun e => e.value) entries n)[i])) := by
    rw [hv, List.getD_eq_getElem?_getD,
      List.getElem?_eq_getElem
        (by rw [List.length_map, List.length_zip, hWl, hVl]; omega),
      List.getElem_map, List.getElem_zip]
    rfl
  have hdget : d.getD i none =
      (if (zz_write (fun e => e.swing) entries n)[i] = 0 then none
       else some ((zz_write (fun e => e.dev) entries n)[i])) := by
    rw [hd, List.getD_eq_getElem?_getD,
      List.getElem?_eq_getElem
        (by rw [List.length_map, List.length_zip, hWl, hDl]; omega),
      List.getElem_map, List.getElem_zip]
    rfl
  by_cases h0 : (zz_write (fun e => e.swing) entries n)[i] = 0
  · left
    rw [hWgetD, hsget, hvget, hdget, h0]
    exact ⟨rfl, rfl, rfl, rfl⟩
  · right
    have hmem := zz_write_mem (fun e => e.swing) entries n
      ((zz_write (fun e => e.swing) entries n)[i]) (List.getElem_mem hiW)
    have hsw : (zz_write (fun e => e.swing) entries n)[i] = 1 ∨
        (zz_write (fun e => e.swing) entries n)[i] = -1 := by
      rcases hmem with h' | ⟨e, he, h'⟩
      · exact absurd h' h0
      · rw [h']
        exact hsigns e he
    refine ⟨by rw [hWgetD]; exact h0,
      ⟨(zz_write (fun e => e.swing) entries n)[i], hsw, ?_⟩,
      ⟨(zz_write (fun e => e.value) entries n)[i], ?_⟩,
      ⟨(zz_write (fun e => e.dev) entries n)[i], ?_⟩⟩
    · rw [hsget, if_neg h0]
    · rw [hvget, if_neg h0]
    · rw [hdget, if_neg h0]

/-- C9 witness: one confirmed swing `⟨1, 1, 10, 0⟩` densified to length 3,
checked at index 1. -/
theorem nb_map_zigzag_missing_sync_witness :
    (((zz_write (fun e => e.swing) [⟨1, 1, 10, 0⟩] 3).getD 1 0 = 0 ∧
      ([none, some (1 : ℚ), none] : List (Option ℚ)).getD 1 none = none ∧
      ([none, some (10 : ℚ), none] : List (Option ℚ)).getD 1 none = none ∧
      ([none, some (0 : ℚ), none] : List (Option ℚ)).getD 1 none = none) ∨
     ((zz_write (fun e => e.swing) [⟨1, 1, 10, 0⟩] 3).getD 1 0 ≠ 0 ∧
      (∃ sw, (sw = 1 ∨ sw = -1) ∧
        ([none, some (1 : ℚ), none] : List (Option ℚ)).getD 1 none =
          some sw) ∧
      (∃ q, ([none, some (10 : ℚ), none] : List (Option ℚ)).getD 1 none =
        some q) ∧
      (∃ q, ([none, some (0 : ℚ), none] : List (Option ℚ)).getD 1 none =
        some q))) :=
  nb_map_zigzag_missing_sync [⟨1, 1, 10, 0⟩] 3
    [none, some 1, none] [none, some 10, none] [none, some 0, none]
    (by decide) (by with_unfolding_all rfl) 1 (by norm_num)
